import Mathlib

/-!
# Verification of the plfit power-law fitting core

A shallow embedding, in Lean 4, of the xmin/alpha estimation core of
`plfit/plfit.py` (the Clauset-Shalizi-Newman power-law fitter), together with
theorems settling a list of claims about it.

Modelling conventions:
* Finite IEEE doubles are rationals, so purely order/branching logic
  (threshold tests, argmin selection, truncation indices) is embedded over `ℚ`
  where every step is decidable and executable.
* The transcendental estimator formulas (`log`-based MLE expressions) are
  embedded over `ℝ` with `Real.log`.
* The parts of the code whose behaviour on special IEEE values (NaN, inf)
  matters are embedded over `FVal`, a four-constructor model of a double:
  a finite real, `inf`, `ninf` or `nan`, with the IEEE propagation rules the
  code relies on.
-/

namespace Plfit

/-! ## numpy argmin

`np.argmin` returns the index of the first occurrence of the minimum of an
array.  `np_argmin_core` scans from the head: it keeps the current best
index/value pair, and a later element replaces the current best only when it
is strictly smaller, which yields first-occurrence tie-breaking. -/

/-- Index/value pair of the first minimum of a list under the strict
comparison `lt`; `none` on the empty list. -/
def np_argmin_core {α : Type} (lt : α → α → Bool) : List α → Option (ℕ × α)
  | [] => none
  | x :: xs =>
    match np_argmin_core lt xs with
    | none => some (0, x)
    | some (j, m) => if lt m x then some (j + 1, m) else some (0, x)

/-- numpy argmin: the index of the first occurrence of the minimum.  On the
empty list this model returns 0 (numpy raises there; no modelled code path
reaches it). -/
def np_argmin {α : Type} (lt : α → α → Bool) (l : List α) : ℕ :=
  (np_argmin_core lt l).elim 0 Prod.fst

theorem np_argmin_core_eq_none {α : Type} (lt : α → α → Bool) (l : List α) :
    np_argmin_core lt l = none ↔ l = [] := by
  cases l with
  | nil => simp [np_argmin_core]
  | cons x xs =>
    simp only [np_argmin_core]
    cases h : np_argmin_core lt xs with
    | none => simp
    | some p =>
      obtain ⟨j, m⟩ := p
      by_cases hlt : lt m x <;> simp [hlt]

/-- Full specification of `np_argmin_core` over a linear order with
`lt a b = decide (a < b)`: the returned index is in range, holds the returned
value, that value is a minimum of the list, and every earlier element is
strictly larger (first-occurrence tie-break). -/
theorem np_argmin_core_spec {α : Type} [LinearOrder α] :
    ∀ (l : List α) (j : ℕ) (m : α),
      np_argmin_core (fun a b => decide (a < b)) l = some (j, m) →
      j < l.length ∧ (∀ d : α, l.getD j d = m) ∧
        (∀ (k : ℕ) (d : α), k < l.length → m ≤ l.getD k d) ∧
        (∀ (k : ℕ) (d : α), k < j → m < l.getD k d) := by
  intro l
  induction l with
  | nil => intro j m h; simp [np_argmin_core] at h
  | cons x xs ih =>
    intro j m h
    rw [np_argmin_core] at h
    cases hc : np_argmin_core (fun a b : α => decide (a < b)) xs with
    | none =>
      simp only [hc, Option.some.injEq, Prod.mk.injEq] at h
      obtain ⟨hj, hm⟩ := h
      subst hj; subst hm
      have hxs : xs = [] := (np_argmin_core_eq_none _ xs).mp hc
      subst hxs
      refine ⟨by simp, by simp, ?_, by omega⟩
      intro k d hk
      simp only [List.length_cons, List.length_nil] at hk
      interval_cases k
      · simp
    | some p =>
      obtain ⟨j1, m1⟩ := p
      simp only [hc] at h
      obtain ⟨hj1, hget1, hmin1, hfirst1⟩ := ih j1 m1 hc
      by_cases hlt : m1 < x
      · rw [if_pos (by simpa using hlt)] at h
        simp only [Option.some.injEq, Prod.mk.injEq] at h
        obtain ⟨hj, hm⟩ := h
        subst hj; subst hm
        refine ⟨by simpa using hj1, ?_, ?_, ?_⟩
        · intro d; simpa using hget1 d
        · intro k d hk
          cases k with
          | zero => simpa using hlt.le
          | succ k =>
            simp only [List.length_cons, Nat.succ_lt_succ_iff] at hk
            simpa using hmin1 k d hk
        · intro k d hk
          cases k with
          | zero => simpa using hlt
          | succ k =>
            simp only [Nat.succ_lt_succ_iff] at hk
            simpa using hfirst1 k d hk
      · rw [if_neg (by simpa using hlt)] at h
        simp only [Option.some.injEq, Prod.mk.injEq] at h
        obtain ⟨hj, hm⟩ := h
        subst hj; subst hm
        have hxm : x ≤ m1 := le_of_not_lt hlt
        refine ⟨by simp, by simp, ?_, by omega⟩
        intro k d hk
        cases k with
        | zero => simp
        | succ k =>
          simp only [List.length_cons, Nat.succ_lt_succ_iff] at hk
          simpa using le_trans hxm (hmin1 k d hk)

theorem np_argmin_spec {α : Type} [LinearOrder α] (l : List α) (hl : l ≠ []) :
    np_argmin (fun a b => decide (a < b)) l < l.length ∧
      (∀ (k : ℕ) (d : α), k < l.length →
        l.getD (np_argmin (fun a b => decide (a < b)) l) d ≤ l.getD k d) ∧
      (∀ (k : ℕ) (d : α), k < np_argmin (fun a b => decide (a < b)) l →
        l.getD (np_argmin (fun a b => decide (a < b)) l) d < l.getD k d) := by
  cases hc : np_argmin_core (fun a b : α => decide (a < b)) l with
  | none => exact absurd ((np_argmin_core_eq_none _ l).mp hc) hl
  | some p =>
    obtain ⟨j, m⟩ := p
    obtain ⟨hj, hget, hmin, hfirst⟩ := np_argmin_core_spec l j m hc
    have harg : np_argmin (fun a b : α => decide (a < b)) l = j := by
      simp [np_argmin, hc]
    rw [harg]
    refine ⟨hj, ?_, ?_⟩
    · intro k d hk
      rw [hget d]; exact hmin k d hk
    · intro k d hk
      rw [hget d]; exact hfirst k d hk

/-! ## The nosmall truncation of the candidate range (plfit.plfit lines 286-304)

The continuous selector computes, per candidate threshold, a standard error
`sigma = (alpha_values - 1)/sqrt(len(z) - argxmins)`, then bounds the usable
candidate range `kstest_values[:nmax]`.  Since finite IEEE doubles are
rationals and only comparisons against 0.1 feed this logic, the sigma array is
embedded as a list of rationals. -/

/-- The signal-to-noise cut 0.1 of plfit.plfit line 293. -/
def sigma_cut : ℚ := 1/10

/-- plfit.plfit line 293: `goodvals = sigma < 0.1`, the boolean array marking
candidates whose standard error is below 0.1. -/
def goodvals (sigma_vals : List ℚ) : List Bool :=
  sigma_vals.map (fun s => decide (s < sigma_cut))

/-- plfit.plfit lines 290-304: the bound `nmax` of the usable candidate range
`kstest_values[:nmax]`.  With `nosmall` on, `nmax = argmin(goodvals)`; if that
is `<= 0` the code falls back to `len(xmins) - 1` and prints a warning.  With
`nosmall` off, `nmax = len(xmins) - 1`.  The sigma array has one entry per
candidate, so `len(xmins)` is `sigma_vals.length`. -/
def nmax_of (nosmall : Bool) (sigma_vals : List ℚ) : ℕ :=
  if nosmall then
    let nmax := np_argmin (fun a b : Bool => decide (a < b)) (goodvals sigma_vals)
    if nmax ≤ 0 then sigma_vals.length - 1 else nmax
  else
    sigma_vals.length - 1

/-- The truncation rule exactly as claim C1 words it: with `nosmall`, find the
first candidate (ascending xmin order) whose sigma falls below 0.1 and
truncate the usable range there; if the sigma of no candidate falls below 0.1, fall
back to the full candidate range; with `nosmall` disabled, drop exactly the
last candidate. -/
def nmax_claimed (nosmall : Bool) (sigma_vals : List ℚ) : ℕ :=
  if nosmall then sigma_vals.findIdx (fun s => decide (s < sigma_cut))
  else sigma_vals.length - 1

/-- The truncation rule the code actually implements (C1 amended): with
`nosmall`, `nmax` is the index of the first candidate whose sigma is NOT below
0.1; when that index is 0 (the first candidate already fails the cut, or every
sigma of every candidate is below 0.1 so the boolean argmin returns 0) the code falls
back to `len - 1`, i.e. the all-but-last range, not the full range. -/
def nmax_amended (nosmall : Bool) (sigma_vals : List ℚ) : ℕ :=
  if nosmall then
    let i := sigma_vals.findIdx (fun s => decide (sigma_cut ≤ s))
    if i = 0 then sigma_vals.length - 1
    else if i = sigma_vals.length then sigma_vals.length - 1
    else i
  else
    sigma_vals.length - 1

theorem findIdx_goodvals (sv : List ℚ) :
    (goodvals sv).findIdx (fun b => !b) = sv.findIdx (fun s => decide (sigma_cut ≤ s)) := by
  induction sv with
  | nil => simp [goodvals]
  | cons q r ih =>
    simp only [goodvals, List.map_cons, List.findIdx_cons]
    by_cases hq : q < sigma_cut
    · have h1 : decide (q < sigma_cut) = true := decide_eq_true hq
      have h2 : decide (sigma_cut ≤ q) = false := decide_eq_false (not_le.mpr hq)
      rw [h1, h2]
      simp only [Bool.not_true, cond_false]
      rw [← ih]
      simp [goodvals]
    · have h1 : decide (q < sigma_cut) = false := decide_eq_false hq
      have h2 : decide (sigma_cut ≤ q) = true := decide_eq_true (not_lt.mp hq)
      rw [h1, h2]
      simp

theorem np_argmin_bool (g : List Bool) :
    np_argmin (fun a b : Bool => decide (a < b)) g =
      if g.findIdx (fun b => !b) = g.length then 0 else g.findIdx (fun b => !b) := by
  rcases eq_or_ne g [] with hg | hne
  · subst hg; simp [np_argmin, np_argmin_core]
  cases hc : np_argmin_core (fun a b : Bool => decide (a < b)) g with
  | none => exact absurd ((np_argmin_core_eq_none _ g).mp hc) hne
  | some p =>
    obtain ⟨j, m⟩ := p
    obtain ⟨hj, hget, hmin, hfirst⟩ := np_argmin_core_spec g j m hc
    have harg : np_argmin (fun a b : Bool => decide (a < b)) g = j := by
      simp [np_argmin, hc]
    rw [harg]
    cases m with
    | true =>
      have hall : ∀ y ∈ g, (!y) = false := by
        intro y hy
        obtain ⟨n, hn, hyn⟩ := List.mem_iff_getElem.mp hy
        have hle := hmin n true hn
        rw [List.getD_eq_getElem _ _ hn, hyn] at hle
        have hyt : y = true := Bool.le_iff_imp.mp hle rfl
        simp [hyt]
      have hlen : g.findIdx (fun b => !b) = g.length := List.findIdx_eq_length.mpr hall
      rw [if_pos hlen]
      by_contra hj0
      have h0 : 0 < j := Nat.pos_of_ne_zero hj0
      have hlt := hfirst 0 true h0
      have h0len : 0 < g.length := lt_trans h0 hj
      have hg0 : g.getD 0 true = true := by
        rw [List.getD_eq_getElem _ _ h0len]
        have hmem := hall (g[0]) (List.getElem_mem h0len)
        simpa using hmem
      rw [hg0] at hlt
      exact lt_irrefl _ hlt
    | false =>
      have hjfi : g.findIdx (fun b => !b) = j := by
        refine (List.findIdx_eq hj).mpr ⟨?_, ?_⟩
        · have hgj := hget false
          rw [List.getD_eq_getElem _ _ hj] at hgj
          simp [hgj]
        · intro k hk
          have hlt := hfirst k false hk
          have hk2 : k < g.length := lt_trans hk hj
          rw [List.getD_eq_getElem _ _ hk2] at hlt
          have hkt : g[k] = true := (Bool.lt_iff.mp hlt).2
          simp [hkt]
      rw [hjfi, if_neg (by omega)]

/-- C1 (amended): with `nosmall` the code truncates the usable candidate range
at the first candidate whose sigma is not below 0.1; it falls back to the
all-but-last range (`len - 1`, with a warning) when that first index is 0 -
which happens both when the very first candidate fails the cut and when every
sigma of every candidate is below 0.1; with `nosmall` disabled the last candidate is
dropped. -/
theorem nosmall_range_amended (nosmall : Bool) (sv : List ℚ) :
    nmax_of nosmall sv = nmax_amended nosmall sv := by
  cases nosmall with
  | false => rfl
  | true =>
    show (if np_argmin (fun a b : Bool => decide (a < b)) (goodvals sv) ≤ 0 then
        sv.length - 1 else np_argmin (fun a b : Bool => decide (a < b)) (goodvals sv)) =
      nmax_amended true sv
    have hlen : (goodvals sv).length = sv.length := by simp [goodvals]
    rw [np_argmin_bool, findIdx_goodvals, hlen]
    rw [show nmax_amended true sv =
        (if sv.findIdx (fun s => decide (sigma_cut ≤ s)) = 0 then sv.length - 1
         else if sv.findIdx (fun s => decide (sigma_cut ≤ s)) = sv.length then sv.length - 1
         else sv.findIdx (fun s => decide (sigma_cut ≤ s))) from rfl]
    by_cases h1 : sv.findIdx (fun s => decide (sigma_cut ≤ s)) = sv.length
    · rw [if_pos h1]
      by_cases h0 : sv.findIdx (fun s => decide (sigma_cut ≤ s)) = 0
      · rw [if_pos (le_refl 0), if_pos h0]
      · rw [if_pos (le_refl 0), if_neg h0, if_pos h1]
    · rw [if_neg h1]
      by_cases h0 : sv.findIdx (fun s => decide (sigma_cut ≤ s)) = 0
      · rw [h0, if_pos (le_refl 0), if_pos rfl]
      · rw [if_neg (by omega), if_neg h0, if_neg h1]

/-- C1 (counterexample): the truncation rule the claim states disagrees with
the code at explicit inputs.  With three candidate sigmas all 0.2 (no sigma
below 0.1) the code uses nmax = 2 (all but the last of 3 candidates), not the
full range nmax = 3 the claim promises; with sigmas 0.05, 0.05, 0.2, 0.2 the
code truncates at nmax = 2 (the first candidate not below 0.1), while the
first candidate whose sigma falls below 0.1 is index 0. -/
theorem nosmall_range_cex :
    nmax_of true [1/5, 1/5, 1/5] = 2 ∧
      nmax_claimed true [1/5, 1/5, 1/5] = 3 ∧
      nmax_of true [1/20, 1/20, 1/5, 1/5] = 2 ∧
      nmax_claimed true [1/20, 1/20, 1/5, 1/5] = 0 := by
  have e1 : goodvals [1/5, 1/5, 1/5] = [false, false, false] := by
    simp only [goodvals, List.map_cons, List.map_nil, sigma_cut]
    norm_num
  have e2 : goodvals [1/20, 1/20, 1/5, 1/5] = [true, true, false, false] := by
    simp only [goodvals, List.map_cons, List.map_nil, sigma_cut]
    norm_num
  refine ⟨?_, ?_, ?_, ?_⟩
  · show (if np_argmin (fun a b : Bool => decide (a < b)) (goodvals [1/5, 1/5, 1/5]) ≤ 0
        then ([(1:ℚ)/5, 1/5, 1/5].length - 1)
        else np_argmin (fun a b : Bool => decide (a < b)) (goodvals [1/5, 1/5, 1/5])) = 2
    rw [e1]
    rfl
  · show List.findIdx (fun s => decide (s < sigma_cut)) [1/5, 1/5, 1/5] = 3
    simp only [List.findIdx_cons, List.findIdx_nil, sigma_cut]
    norm_num
  · show (if np_argmin (fun a b : Bool => decide (a < b)) (goodvals [1/20, 1/20, 1/5, 1/5]) ≤ 0
        then ([(1:ℚ)/20, 1/20, 1/5, 1/5].length - 1)
        else np_argmin (fun a b : Bool => decide (a < b)) (goodvals [1/20, 1/20, 1/5, 1/5])) = 2
    rw [e2]
    rfl
  · show List.findIdx (fun s => decide (s < sigma_cut)) [1/20, 1/20, 1/5, 1/5] = 0
    simp only [List.findIdx_cons, List.findIdx_nil, sigma_cut]
    norm_num

/-! ## The post-selection alpha consistency check (plfit.plfit lines 319-336) -/

/-- numpy testing assert_almost_equal(actual, desired, decimal=4) fails
precisely when `abs(desired - actual) >= 1.5 * 10^-4`: an absolute tolerance
of 3/20000, not a relative one. -/
def assert_almost_equal_fails (actual desired : ℚ) : Bool :=
  decide ((3 : ℚ)/20000 ≤ |desired - actual|)

/-- plfit.plfit lines 322-336: unless `skip_consistency_check` is set, an
AssertionError is raised exactly when the directly recomputed alpha
(`alpha_direct`, the `actual` argument) and the per-candidate alpha of the selector
at the winning threshold (`alpha_selected`, the `desired` argument) fail the
assert_almost_equal decimal=4 test. -/
def consistency_check_raises (skip : Bool) (alpha_direct alpha_selected : ℚ) : Bool :=
  !skip && assert_almost_equal_fails alpha_direct alpha_selected

/-- C2 (amended): the consistency check raises exactly when the recomputed and
selected alpha values differ by at least the absolute tolerance 1.5e-4 of
assert_almost_equal decimal=4 (not a ~1e-4 relative tolerance), and it never
raises when skip_consistency_check is set. -/
theorem consistency_check_amended (a b : ℚ) :
    consistency_check_raises true a b = false ∧
      (consistency_check_raises false a b = true ↔ (3 : ℚ)/20000 ≤ |b - a|) := by
  constructor
  · rfl
  · simp [consistency_check_raises, assert_almost_equal_fails]

/-- C2 (counterexample): the raise condition is not a function of the relative
difference: here are two pairs (recomputed, selected) with the same relative
difference 2e-5 - far inside any tolerance of about 1e-4 relative - where the
code raises on one and not on the other.  The tolerance is absolute. -/
theorem consistency_check_cex :
    consistency_check_raises false 100002 100000 = true ∧
      consistency_check_raises false (2 + 1/25000) 2 = false ∧
      ((100002 : ℚ) - 100000) / 100000 = ((2 + 1/25000 : ℚ) - 2) / 2 := by
  refine ⟨?_, ?_, by norm_num⟩
  · simp only [consistency_check_raises, assert_almost_equal_fails, Bool.not_false,
      Bool.true_and]
    rw [decide_eq_true_eq, abs_sub_comm, show (100002:ℚ) - 100000 = 2 by norm_num,
      abs_of_nonneg (by norm_num)]
    norm_num
  · simp only [consistency_check_raises, assert_almost_equal_fails, Bool.not_false,
      Bool.true_and]
    rw [decide_eq_false_iff_not, abs_sub_comm,
      show (2 + 1/25000 : ℚ) - 2 = 1/25000 by norm_num, abs_of_nonneg (by norm_num)]
    norm_num

/-! ## Constructor filtering (plfit.__init__ lines 151-156; plfit.plfit lines 223-227) -/

/-- plfit.__init__: the stored `self.data`.  The strict filter `x = x[x>0]`
runs only when `(x<0).sum() > 0`, i.e. only when the input holds at least one
strictly negative point (and the printed message counts those negatives). -/
def plfit_init_data (x : List ℚ) : List ℚ :=
  if 0 < x.countP (fun t => decide (t < 0)) then x.filter (fun t => decide (0 < t)) else x

/-- plfit.plfit lines 224-227: the guard `any(x < 0)` whose truth raises
ValueError. -/
def plfit_negcheck (data : List ℚ) : Bool := data.any (fun t => decide (t < 0))

/-- C10 (amended): data stored by the constructor never contains a strictly
negative value - when negatives are present the whole sample is filtered to
strictly positive values, otherwise it is stored unchanged (and is then
nonnegative, though not necessarily strictly positive) - hence the
negative-value ValueError branch inside plfit.plfit is unreachable for a fit
started through the constructor. -/
theorem constructor_negcheck_unreachable (x : List ℚ) :
    plfit_negcheck (plfit_init_data x) = false := by
  rw [plfit_negcheck, List.any_eq_false]
  intro t ht
  simp only [decide_eq_true_eq, not_lt]
  rw [plfit_init_data] at ht
  by_cases h : 0 < x.countP (fun t => decide (t < 0))
  · rw [if_pos h] at ht
    have h2 := (List.mem_filter.mp ht).2
    simp only [decide_eq_true_eq] at h2
    exact le_of_lt h2
  · rw [if_neg h] at ht
    have hc : x.countP (fun t => decide (t < 0)) = 0 := by omega
    have h2 := List.countP_eq_zero.mp hc t ht
    simpa using h2

/-- C10 (counterexample): the constructor filter is conditional, not the
unconditional strict `x > 0` filter the claim states: an input containing a
zero but no negative value is stored unchanged, zero included, so the stored
data is not strictly positive.  (When a negative is present, zeros are indeed
removed together with the negatives.) -/
theorem constructor_zero_retained_cex :
    plfit_init_data [0, 1, 2] = [0, 1, 2] ∧ (0 : ℚ) ∈ plfit_init_data [0, 1, 2] ∧
      plfit_init_data [-1, 0, 2] = [2] := by
  have e0 : plfit_init_data [0, 1, 2] = [0, 1, 2] := by
    rw [plfit_init_data, if_neg]
    simp only [List.countP_cons, List.countP_nil]
    norm_num
  have e1 : plfit_init_data [-1, 0, 2] = [2] := by
    rw [plfit_init_data, if_pos]
    · simp only [List.filter]
      norm_num
    · simp only [List.countP_cons, List.countP_nil]
      norm_num
  exact ⟨e0, by rw [e0]; simp, e1⟩

/-! ## A take/getD helper for range-restricted selections -/

theorem getD_take_eq {a : Type} (l : List a) (n j : Nat) (d : a) (h : j < n) :
    (l.take n).getD j d = l.getD j d := by
  rw [List.getD_eq_getElem?_getD, List.getD_eq_getElem?_getD, List.getElem?_take, if_pos h]

/-! ## The continuous per-candidate MLE (alpha_gen, plfit.py lines 65-79) -/

/-- The function generated by `alpha_gen`: given the sorted data set and a
threshold, the continuous power-law MLE.  Mirrors the source line by line:
`n = np.count_nonzero(x >= xmin)`; `if n < 2: return 0`;
`a = 1 + float(n) / sum(log(x[x >= xmin]/xmin))`.  (Real division is total in
Lean; when the log-sum is 0 - every qualifying point equal to the threshold -
the float code produces inf where this model produces 1 + 0.  Both sides of
the refinement theorem below share that convention, and no claim concerns
that degenerate value.) -/
noncomputable def alpha_ (x : List ℝ) (xmin : ℝ) : ℝ :=
  if x.countP (fun t => decide (xmin ≤ t)) < 2 then 0
  else 1 + (x.countP (fun t => decide (xmin ≤ t)) : ℝ) /
    (((x.filter (fun t => decide (xmin ≤ t))).map (fun t => Real.log (t / xmin))).sum)

/-- The formula exactly as claim C3 states it: with `n` the count of points
`x_i >= xmin`, return `1 + n / sum(log(x_i/xmin))` over those points when
`n >= 2`, and the sentinel 0 when fewer than 2 qualify. -/
noncomputable def alpha_claimed (x : List ℝ) (xmin : ℝ) : ℝ :=
  if 2 ≤ (x.filter (fun t => decide (xmin ≤ t))).length then
    1 + ((x.filter (fun t => decide (xmin ≤ t))).length : ℝ) /
      (((x.filter (fun t => decide (xmin ≤ t))).map (fun t => Real.log (t / xmin))).sum)
  else 0

/-- C3: the continuous alpha primitive returns
`1 + n / sum(log(x_i/xmin))` over the points at or above the threshold when at
least 2 qualify, and the sentinel 0 otherwise. -/
theorem alpha_gen_formula (x : List ℝ) (xmin : ℝ) :
    alpha_ x xmin = alpha_claimed x xmin := by
  rw [alpha_, alpha_claimed, List.countP_eq_length_filter]
  by_cases h : (x.filter (fun t => decide (xmin ≤ t))).length < 2
  · rw [if_pos h, if_neg (by omega)]
  · rw [if_neg h, if_pos (by omega)]

/-! ## The discrete per-candidate MLE (discrete_alpha_mle, plfit.py lines 999-1013) -/

/-- discrete_alpha_mle: the discrete closed-form MLE.  Mirrors the source:
`nn = (data >= xmin).sum()`; `if nn < 2: return 0`;
`alpha = 1.0 + float(nn) * (sum(log(xx/(float(xmin)-0.5))))**-1` over the
qualifying points `xx`.  (`**-1` is the IEEE reciprocal; the Lean inverse is total
with `0⁻¹ = 0`, a convention both sides of the refinement theorem share.) -/
noncomputable def discrete_alpha_mle (data : List ℝ) (xmin : ℝ) : ℝ :=
  if data.countP (fun t => decide (xmin ≤ t)) < 2 then 0
  else 1 + (data.countP (fun t => decide (xmin ≤ t)) : ℝ) *
    (((data.filter (fun t => decide (xmin ≤ t))).map
      (fun t => Real.log (t / (xmin - 1/2)))).sum)⁻¹

/-- The formula exactly as claim C5 states it:
`alpha = 1 + n * (sum(log(x_i/(xmin-0.5))))^-1` over the qualifying points
`x_i >= xmin` when `n >= 2`, and 0 when fewer than 2 qualify. -/
noncomputable def discrete_alpha_claimed (data : List ℝ) (xmin : ℝ) : ℝ :=
  if 2 ≤ (data.filter (fun t => decide (xmin ≤ t))).length then
    1 + ((data.filter (fun t => decide (xmin ≤ t))).length : ℝ) *
      (((data.filter (fun t => decide (xmin ≤ t))).map
        (fun t => Real.log (t / (xmin - 1/2)))).sum)⁻¹
  else 0

/-- C5: `discrete_alpha_mle` returns
`1 + n * (sum(log(x_i/(xmin-0.5))))^-1` over the qualifying points when at
least 2 qualify, and 0 otherwise. -/
theorem discrete_alpha_mle_formula (data : List ℝ) (xmin : ℝ) :
    discrete_alpha_mle data xmin = discrete_alpha_claimed data xmin := by
  rw [discrete_alpha_mle, discrete_alpha_claimed, List.countP_eq_length_filter]
  by_cases h : (data.filter (fun t => decide (xmin ≤ t))).length < 2
  · rw [if_pos h, if_neg (by omega)]
  · rw [if_neg h, if_pos (by omega)]

/-! ## An IEEE double model with special values

The NaN/inf handling of the fitter (the claims about NaN guards and NaN
exclusion) is behaviour of IEEE special values, so those code paths are
embedded over `FVal`: a finite real value, an infinity, or NaN, with the IEEE
propagation rules the code exercises.  Signed zero is not modelled: no
modelled code path distinguishes -0.0 from +0.0. -/

/-- A model of an IEEE double as numpy uses it. -/
inductive FVal : Type
  | num : ℝ → FVal
  | inf : FVal
  | ninf : FVal
  | nan : FVal

/-- IEEE `isnan`. -/
def FVal.isnan : FVal → Bool
  | nan => true
  | _ => false

/-- IEEE `<=` as numpy evaluates it: false whenever either side is NaN. -/
noncomputable def fleB : FVal → FVal → Bool
  | FVal.nan, _ => false
  | _, FVal.nan => false
  | FVal.ninf, _ => true
  | _, FVal.inf => true
  | FVal.inf, _ => false
  | _, FVal.ninf => false
  | FVal.num a, FVal.num b => decide (a ≤ b)

/-- IEEE `<`: false whenever either side is NaN. -/
noncomputable def fltB : FVal → FVal → Bool
  | FVal.nan, _ => false
  | _, FVal.nan => false
  | FVal.ninf, FVal.ninf => false
  | FVal.ninf, _ => true
  | _, FVal.ninf => false
  | FVal.inf, _ => false
  | _, FVal.inf => true
  | FVal.num a, FVal.num b => decide (a < b)

/-- IEEE `>=`, as `b <= a`. -/
noncomputable def fgeB (a b : FVal) : Bool := fleB b a

/-- IEEE addition. -/
noncomputable def fadd : FVal → FVal → FVal
  | FVal.nan, _ => FVal.nan
  | _, FVal.nan => FVal.nan
  | FVal.inf, FVal.ninf => FVal.nan
  | FVal.ninf, FVal.inf => FVal.nan
  | FVal.inf, _ => FVal.inf
  | _, FVal.inf => FVal.inf
  | FVal.ninf, _ => FVal.ninf
  | _, FVal.ninf => FVal.ninf
  | FVal.num a, FVal.num b => FVal.num (a + b)

/-- IEEE subtraction. -/
noncomputable def fsub : FVal → FVal → FVal
  | FVal.nan, _ => FVal.nan
  | _, FVal.nan => FVal.nan
  | FVal.inf, FVal.inf => FVal.nan
  | FVal.ninf, FVal.ninf => FVal.nan
  | FVal.inf, _ => FVal.inf
  | FVal.ninf, _ => FVal.ninf
  | _, FVal.inf => FVal.ninf
  | _, FVal.ninf => FVal.inf
  | FVal.num a, FVal.num b => FVal.num (a - b)

/-- IEEE multiplication (`0 * inf = nan`). -/
noncomputable def fmul : FVal → FVal → FVal
  | FVal.nan, _ => FVal.nan
  | _, FVal.nan => FVal.nan
  | FVal.num a, FVal.num b => FVal.num (a * b)
  | FVal.num a, FVal.inf => if a = 0 then FVal.nan else if 0 < a then FVal.inf else FVal.ninf
  | FVal.num a, FVal.ninf => if a = 0 then FVal.nan else if 0 < a then FVal.ninf else FVal.inf
  | FVal.inf, FVal.num b => if b = 0 then FVal.nan else if 0 < b then FVal.inf else FVal.ninf
  | FVal.ninf, FVal.num b => if b = 0 then FVal.nan else if 0 < b then FVal.ninf else FVal.inf
  | FVal.inf, FVal.inf => FVal.inf
  | FVal.inf, FVal.ninf => FVal.ninf
  | FVal.ninf, FVal.inf => FVal.ninf
  | FVal.ninf, FVal.ninf => FVal.inf

/-- IEEE division (with unsigned zero: `x/0` carries the sign of `x`,
matching division by the positive `0.0` of numpy; `0/0 = nan`; `x/inf = 0`). -/
noncomputable def fdiv : FVal → FVal → FVal
  | FVal.nan, _ => FVal.nan
  | _, FVal.nan => FVal.nan
  | FVal.num a, FVal.num b =>
      if b = 0 then (if a = 0 then FVal.nan else if 0 < a then FVal.inf else FVal.ninf)
      else FVal.num (a / b)
  | FVal.num _, FVal.inf => FVal.num 0
  | FVal.num _, FVal.ninf => FVal.num 0
  | FVal.inf, FVal.num b => if 0 ≤ b then FVal.inf else FVal.ninf
  | FVal.ninf, FVal.num b => if 0 ≤ b then FVal.ninf else FVal.inf
  | FVal.inf, _ => FVal.nan
  | FVal.ninf, _ => FVal.nan

/-- IEEE `log` as `np.log` computes it: `log(negative) = nan` (with a runtime
warning, not an exception), `log(0) = -inf`, `log(inf) = inf`,
`log(nan) = nan`. -/
noncomputable def flog : FVal → FVal
  | FVal.nan => FVal.nan
  | FVal.inf => FVal.inf
  | FVal.ninf => FVal.nan
  | FVal.num a => if a < 0 then FVal.nan else if a = 0 then FVal.ninf else FVal.num (Real.log a)

/-- IEEE square root: `sqrt(negative) = nan`. -/
noncomputable def fsqrt : FVal → FVal
  | FVal.nan => FVal.nan
  | FVal.inf => FVal.inf
  | FVal.ninf => FVal.nan
  | FVal.num a => if a < 0 then FVal.nan else FVal.num (Real.sqrt a)

/-- The IEEE reciprocal `x ** -1` (`pow(x, -1) = 1/x` exactly):
`0**-1 = inf`, `inf**-1 = 0`, `nan**-1 = nan`. -/
noncomputable def finv : FVal → FVal
  | FVal.nan => FVal.nan
  | FVal.inf => FVal.num 0
  | FVal.ninf => FVal.num 0
  | FVal.num a => if a = 0 then FVal.inf else FVal.num a⁻¹

/-- IEEE absolute value. -/
noncomputable def fabs : FVal → FVal
  | FVal.nan => FVal.nan
  | FVal.inf => FVal.inf
  | FVal.ninf => FVal.inf
  | FVal.num a => FVal.num |a|

/-- IEEE `pow` in the cases the fitter exercises.  The rules that matter to
the theorems below are the IEEE special cases `pow(1, y) = 1` for every `y`
(NaN included) and `pow(x, 0) = 1`; positive finite bases use the real power
`Real.rpow`.  A negative finite base with a finite nonzero exponent is
modelled as NaN (the IEEE result for a non-integer exponent; the
integer-exponent subcase is not distinguished because no modelled code path
reaches a negative base: the fitted data are nonnegative). -/
noncomputable def fpow : FVal → FVal → FVal
  | FVal.num a, FVal.num b =>
      if a = 1 then FVal.num 1
      else if b = 0 then FVal.num 1
      else if 0 < a then FVal.num (a ^ b)
      else if a = 0 then (if 0 < b then FVal.num 0 else FVal.inf)
      else FVal.nan
  | FVal.num a, FVal.nan => if a = 1 then FVal.num 1 else FVal.nan
  | FVal.num a, FVal.inf =>
      if a = 1 ∨ a = -1 then FVal.num 1 else if |a| < 1 then FVal.num 0 else FVal.inf
  | FVal.num a, FVal.ninf =>
      if a = 1 ∨ a = -1 then FVal.num 1 else if |a| < 1 then FVal.inf else FVal.num 0
  | FVal.nan, FVal.num b => if b = 0 then FVal.num 1 else FVal.nan
  | FVal.nan, _ => FVal.nan
  | FVal.inf, FVal.num b => if b = 0 then FVal.num 1 else if 0 < b then FVal.inf else FVal.num 0
  | FVal.inf, FVal.inf => FVal.inf
  | FVal.inf, FVal.ninf => FVal.num 0
  | FVal.inf, FVal.nan => FVal.nan
  | FVal.ninf, FVal.num b => if b = 0 then FVal.num 1 else if 0 < b then FVal.inf else FVal.num 0
  | FVal.ninf, FVal.inf => FVal.inf
  | FVal.ninf, FVal.ninf => FVal.num 0
  | FVal.ninf, FVal.nan => FVal.nan

/-- numpy sum / Python sum: a left fold of IEEE addition from 0. -/
noncomputable def fsum (l : List FVal) : FVal := l.foldl fadd (FVal.num 0)

/-- The binary maximum underlying `np.max`: NaN-propagating. -/
noncomputable def fmax2 (a b : FVal) : FVal :=
  if a.isnan || b.isnan then FVal.nan else if fleB a b then b else a

/-- numpy max over an array: NaN-propagating reduction.  numpy raises on an
empty array; every use below is guarded by an emptiness test, and the []
case here is never reached by a modelled path. -/
noncomputable def npmax : List FVal → FVal
  | [] => FVal.nan
  | x :: xs => xs.foldl fmax2 x

/-- Insertion step of the ascending sort. -/
noncomputable def finsert (a : FVal) : List FVal → List FVal
  | [] => [a]
  | b :: bs => if fleB a b then a :: b :: bs else b :: finsert a bs

/-- numpy sort: ascending insertion sort.  (With NaN absent - true of every
modelled input - this agrees with numpy; numpy additionally sorts NaN last.) -/
noncomputable def fsort (l : List FVal) : List FVal := l.foldr finsert []

/-- IEEE equality test, used only to collapse adjacent duplicates of a sorted
array. -/
noncomputable def feqB (a b : FVal) : Bool := fleB a b && fleB b a

/-- Collapse adjacent duplicates of a sorted list. -/
noncomputable def dedupSorted : List FVal → List FVal
  | [] => []
  | [a] => [a]
  | a :: b :: rest =>
      if feqB a b then dedupSorted (b :: rest) else a :: dedupSorted (b :: rest)

/-- numpy unique: the sorted distinct values. -/
noncomputable def npunique (l : List FVal) : List FVal := dedupSorted (fsort l)

/-- The ok value of an Except as an option, to state properties of the non-raising runs. -/
def exceptOk {e a : Type} : Except e a → Option a
  | Except.ok x => some x
  | Except.error _ => none

/-! ## The discrete estimator over IEEE values (plfit.py lines 999-1013, 1048-1069, 922-942) -/

/-- discrete_alpha_mle over IEEE values: the same source lines as
`discrete_alpha_mle` above (`nn = (data >= xmin).sum(); if nn < 2: return 0;
alpha = 1.0 + float(nn) * (sum(log(xx/(float(xmin)-0.5))))**-1`), with the
special-value propagation the float code has. -/
noncomputable def discrete_alpha_mle_f (data : List FVal) (xmin : FVal) : FVal :=
  if (data.filter (fun t => fgeB t xmin)).length < 2 then FVal.num 0
  else
    fadd (FVal.num 1)
      (fmul (FVal.num (((data.filter (fun t => fgeB t xmin)).length : ℕ) : ℝ))
        (finv (fsum ((data.filter (fun t => fgeB t xmin)).map
          (fun t => flog (fdiv t (fsub xmin (FVal.num (1/2)))))))))

/-- discrete_ksD (plfit.py lines 1048-1069): `zz = sort(data[data >= xmin])`;
`if nn < 2: return inf`; `model_cdf = 1 - (zz/xmin)**(1-alpha)`;
`data_cdf = searchsorted(zz, zz, side=left)/nn` (the left insertion index in a
sorted array is the count of strictly smaller elements);
`ks = max(abs(model_cdf - data_cdf))`. -/
noncomputable def discrete_ksD_f (data : List FVal) (xmin alpha_v : FVal) : FVal :=
  if (fsort (data.filter (fun t => fgeB t xmin))).length < 2 then FVal.inf
  else
    npmax
      ((((fsort (data.filter (fun t => fgeB t xmin))).map
          (fun z => fsub (FVal.num 1) (fpow (fdiv z xmin) (fsub (FVal.num 1) alpha_v)))).zip
        ((fsort (data.filter (fun t => fgeB t xmin))).map
          (fun z => fdiv
            (FVal.num (((fsort (data.filter (fun t => fgeB t xmin))).countP
              (fun w => fltB w z) : ℕ) : ℝ))
            (FVal.num (((fsort (data.filter (fun t => fgeB t xmin))).length : ℕ) : ℝ))))).map
        (fun p => fabs (fsub p.1 p.2)))

/-- Modelled from the spec: the Riemann/Hurwitz zeta special function that the
discrete likelihood requires (`scipy.special.zeta`) is an external numeric
dependency, not code of this repository.  Like every IEEE special function it
propagates NaN, and no theorem below inspects any of its finite values (they
are transcendental), so this stand-in collapses every value to NaN; only the
NaN-in/NaN-out behaviour is relied upon, and the pipeline is parametric in the
zeta function so the stand-in can be swapped for any other model. -/
noncomputable def zetaF (_s _q : FVal) : FVal := FVal.nan

/-- discrete_likelihood (plfit.py lines 922-942): `zz = data[data >= xmin]`;
`L = -1*nn*log(zeta(alpha, xmin)) - alpha*sum(log(zz))`. -/
noncomputable def discrete_likelihood_f (zetaf : FVal → FVal → FVal) (data : List FVal)
    (xmin alpha_v : FVal) : FVal :=
  fsub
    (fmul (fmul (FVal.num (-1)) (FVal.num (((data.filter (fun t => fgeB t xmin)).length : ℕ) : ℝ)))
      (flog (zetaf alpha_v xmin)))
    (fmul alpha_v (fsum ((data.filter (fun t => fgeB t xmin)).map flog)))

/-! ## The discrete selector (plfit.discrete_best_alpha, plfit.py lines 397-453) -/

/-- Line 417: `xmins = np.unique(data)`. -/
noncomputable def dba_xmins (data : List FVal) : List FVal := npunique data

/-- Line 419 (the `approximate=True` branch, which is what `plfit.plfit`
dispatches to by default): the per-candidate closed-form alpha values. -/
noncomputable def dba_alphas (data : List FVal) : List FVal :=
  (dba_xmins data).map (fun xm => discrete_alpha_mle_f data xm)

/-- Lines 425-431: the per-candidate KS values with the NaN entries replaced
by inf (`ksvalues[np.isnan(ksvalues)] = np.inf`), so that a NaN never wins the
argmin. -/
noncomputable def dba_ks (data : List FVal) : List FVal :=
  (((dba_xmins data).zip (dba_alphas data)).map (fun p => discrete_ksD_f data p.1 p.2)).map
    (fun v => match v with | FVal.nan => FVal.inf | w => w)

/-- Line 433: `best_index = argmin(ksvalues)`. -/
noncomputable def dba_best_index (data : List FVal) : ℕ := np_argmin fltB (dba_ks data)

/-- The fields discrete_best_alpha stores (`self._alpha` etc., and
`self._ngtx = n`). -/
structure DBA_Result : Type where
  best_alpha : FVal
  best_xmin : FVal
  best_ks : FVal
  best_likelihood : FVal
  alphaerr : FVal
  ngtx : ℕ

/-- plfit.discrete_best_alpha (the method, plfit.py lines 397-453), in its
`approximate=True` branch.  After the selection and the likelihood at the
winner, line 439 tests `finite`; its body (line 440,
`self._alpha = self._alpha*(n-1.)/n+1./n`) reads the local variable `n`
before its first assignment (line 448, `self._ngtx = n = ...`), so with
`finite` set Python raises UnboundLocalError there - the model returns that
error.  With `finite` unset, `n` is the count of points at or above the
selected xmin and `self._alphaerr = (self._alpha-1.0)/np.sqrt(n)`.
(The verbose print and the scipy `ksone.sf` probability, which touch no
stored numeric field of the claims, are not modelled.) -/
noncomputable def discrete_best_alpha (zetaf : FVal → FVal → FVal) (data : List FVal)
    (finite : Bool) : Except String DBA_Result :=
  if finite then
    Except.error "UnboundLocalError: local variable n referenced before assignment"
  else
    Except.ok
      { best_alpha := (dba_alphas data).getD (dba_best_index data) FVal.nan
        best_xmin := (dba_xmins data).getD (dba_best_index data) FVal.nan
        best_ks := (dba_ks data).getD (dba_best_index data) FVal.nan
        best_likelihood := discrete_likelihood_f zetaf data
          ((dba_xmins data).getD (dba_best_index data) FVal.nan)
          ((dba_alphas data).getD (dba_best_index data) FVal.nan)
        alphaerr := fdiv
          (fsub ((dba_alphas data).getD (dba_best_index data) FVal.nan) (FVal.num 1))
          (fsqrt (FVal.num (((data.filter (fun t => fgeB t
            ((dba_xmins data).getD (dba_best_index data) FVal.nan))).length : ℕ) : ℝ)))
        ngtx := (data.filter (fun t => fgeB t
          ((dba_xmins data).getD (dba_best_index data) FVal.nan))).length }

/-- plfit.plfit lines 248-254: with `xmin=None` and the discrete fitter
chosen, the method calls `discrete_best_alpha` and immediately returns
`(self._xmin, self._alpha)` - there is no NaN check on this path (the NaN
check on lines 374-375 is below the `return` on line 254 and is never
reached). -/
noncomputable def plfit_discrete_return (zetaf : FVal → FVal → FVal) (data : List FVal)
    (finite : Bool) : Except String (FVal × FVal) :=
  Except.map (fun r => (r.best_xmin, r.best_alpha)) (discrete_best_alpha zetaf data finite)

/-! ## The continuous fit tail (plfit.plfit lines 338-375)

Once `xmin` is fixed (searched for or caller-given), lines 338-362 compute
`n = len(z[z >= xmin])`, `alpha = 1 + n/sum(log(z/xmin))` (with the optional
finite-sample correction `alpha*(n-1.)/n + 1./n`),
`ks = max(abs(arange(n)/n - (1-(xmin/z)**(alpha-1))))`,
`L = n*log((alpha-1)/xmin) - alpha*sum(log(z/xmin))` and
`alphaerr = (alpha-1)/sqrt(n)`; then line 364 returns the zeroed degenerate
result when `n == 1` (printing a failure warning unless `silent`), and lines
374-375 raise ValueError when `L`, `xmin` or `alpha` is NaN.  In the source
the arithmetic runs before the `n == 1` test and is then discarded; it raises
nothing for `n >= 1`, so hoisting the degenerate test (as the model does) is
observationally equal.  For `n == 0` the source raises at the `ks` line
(`np.max` of an empty array is a ValueError), which the model returns as an
error up front. -/

/-- The count `n = len(z[z >= xmin])`: the number of points at or above the
threshold. -/
noncomputable def nQf (z : List FVal) (xminv : FVal) : ℕ :=
  (z.filter (fun t => fgeB t xminv)).length

/-- Line 349 log-sum `sum(log(z/xmin))` over the qualifying points. -/
noncomputable def tail_logsum (z : List FVal) (xminv : FVal) : FVal :=
  fsum ((z.filter (fun t => fgeB t xminv)).map (fun t => flog (fdiv t xminv)))

/-- Lines 340-342: the reported alpha, with the finite-sample correction
`alpha*(n-1.)/n + 1./n` when `finite` is set. -/
noncomputable def tail_alpha (finite : Bool) (z : List FVal) (xminv : FVal) : FVal :=
  if finite then
    fadd
      (fdiv
        (fmul (fadd (FVal.num 1) (fdiv (FVal.num ((nQf z xminv : ℕ) : ℝ)) (tail_logsum z xminv)))
          (FVal.num (((nQf z xminv : ℕ) : ℝ) - 1)))
        (FVal.num ((nQf z xminv : ℕ) : ℝ)))
      (fdiv (FVal.num 1) (FVal.num ((nQf z xminv : ℕ) : ℝ)))
  else fadd (FVal.num 1) (fdiv (FVal.num ((nQf z xminv : ℕ) : ℝ)) (tail_logsum z xminv))

/-- Line 346: the KS statistic of the final fit. -/
noncomputable def tail_ks (finite : Bool) (z : List FVal) (xminv : FVal) : FVal :=
  npmax
    (((((List.range (nQf z xminv)).map
        (fun i => fdiv (FVal.num (i : ℝ)) (FVal.num ((nQf z xminv : ℕ) : ℝ))))).zip
      ((z.filter (fun t => fgeB t xminv)).map
        (fun t => fsub (FVal.num 1)
          (fpow (fdiv xminv t) (fsub (tail_alpha finite z xminv) (FVal.num 1)))))).map
      (fun p => fabs (fsub p.1 p.2)))

/-- Line 349: the log-likelihood `L = n*log((alpha-1)/xmin) - alpha*sum(log(z/xmin))`. -/
noncomputable def tail_L (finite : Bool) (z : List FVal) (xminv : FVal) : FVal :=
  fsub
    (fmul (FVal.num ((nQf z xminv : ℕ) : ℝ))
      (flog (fdiv (fsub (tail_alpha finite z xminv) (FVal.num 1)) xminv)))
    (fmul (tail_alpha finite z xminv) (tail_logsum z xminv))

/-- Line 355: `alphaerr = (alpha-1)/sqrt(n)`. -/
noncomputable def tail_alphaerr (finite : Bool) (z : List FVal) (xminv : FVal) : FVal :=
  fdiv (fsub (tail_alpha finite z xminv) (FVal.num 1)) (fsqrt (FVal.num ((nQf z xminv : ℕ) : ℝ)))

/-- The final fields of a continuous fit (`self._xmin`, `self._alpha`,
`self._likelihood`, `self._ks`, `self._alphaerr`), plus whether the degenerate
failure warning was printed. -/
structure PlfitRes : Type where
  xmin : FVal
  alpha : FVal
  likelihood : FVal
  ks : FVal
  alphaerr : FVal
  warned : Bool

/-- plfit.plfit lines 338-375: the continuous fit tail.  `n == 0`: ValueError
from `np.max` of an empty array.  `n == 1`: the zeroed degenerate result
(alpha, alphaerr, likelihood, ks all set to 0, xmin kept) with the warning
printed unless `silent`.  Otherwise: ValueError when `L`, `xmin` or `alpha`
is NaN, else the computed result. -/
noncomputable def plfit_tail (finite silent : Bool) (z : List FVal) (xminv : FVal) :
    Except String PlfitRes :=
  if nQf z xminv = 0 then
    Except.error "ValueError: zero-size array to reduction operation maximum which has no identity"
  else if nQf z xminv = 1 then
    Except.ok ⟨xminv, FVal.num 0, FVal.num 0, FVal.num 0, FVal.num 0, !silent⟩
  else if (tail_L finite z xminv).isnan || xminv.isnan || (tail_alpha finite z xminv).isnan then
    Except.error "plfit failed; returned a nan"
  else
    Except.ok ⟨xminv, tail_alpha finite z xminv, tail_L finite z xminv, tail_ks finite z xminv,
      tail_alphaerr finite z xminv, false⟩

theorem fleB_nan_left (y : FVal) : fleB FVal.nan y = false := by
  cases y <;> rfl

theorem nQf_pos_not_nan {z : List FVal} {xminv : FVal} (h : 0 < nQf z xminv) :
    xminv.isnan = false := by
  cases xminv with
  | num a => rfl
  | inf => rfl
  | ninf => rfl
  | nan =>
    exfalso
    have hfil : z.filter (fun t => fgeB t FVal.nan) = [] := by
      rw [List.filter_eq_nil_iff]
      intro t ht
      rw [fgeB, fleB_nan_left]
      simp
    rw [nQf, hfil] at h
    simp at h

/-- C6: with the finite-sample correction requested, the discrete selector
crashes: line 440 reads the local `n` before its assignment on line 448, an
UnboundLocalError, instead of applying `alpha*(n-1)/n + 1/n`. -/
theorem discrete_finite_unbound_local :
    discrete_best_alpha zetaF [FVal.num 1, FVal.num 1, FVal.num 2, FVal.num 2] true =
      Except.error "UnboundLocalError: local variable n referenced before assignment" := rfl

/-- C7: when exactly one point lies at or above the selected threshold, the
fit returns the zeroed degenerate result (alpha = 0, likelihood = 0, ks = 0,
alphaerr = 0, xmin kept), warns unless silenced, and raises no exception. -/
theorem degenerate_fit_zeroed (finite silent : Bool) (z : List FVal) (xminv : FVal)
    (h : nQf z xminv = 1) :
    plfit_tail finite silent z xminv =
      Except.ok ⟨xminv, FVal.num 0, FVal.num 0, FVal.num 0, FVal.num 0, !silent⟩ := by
  rw [plfit_tail, if_neg (by omega), if_pos h]

/-- C7 (witness): the degenerate result at the concrete sample [1, 3] with
threshold 2: exactly one point qualifies and the zeroed result is returned
with the warning. -/
theorem degenerate_fit_zeroed_witness :
    nQf [FVal.num 1, FVal.num 3] (FVal.num 2) = 1 ∧
      plfit_tail false false [FVal.num 1, FVal.num 3] (FVal.num 2) =
        Except.ok ⟨FVal.num 2, FVal.num 0, FVal.num 0, FVal.num 0, FVal.num 0, true⟩ := by
  have h1 : fgeB (FVal.num 1) (FVal.num 2) = false := by
    show decide ((2:ℝ) ≤ 1) = false
    exact decide_eq_false (by norm_num)
  have h2 : fgeB (FVal.num 3) (FVal.num 2) = true := by
    show decide ((2:ℝ) ≤ 3) = true
    exact decide_eq_true (by norm_num)
  have h : nQf [FVal.num 1, FVal.num 3] (FVal.num 2) = 1 := by
    rw [nQf]
    simp [List.filter_cons, h1, h2]
  refine ⟨h, ?_⟩
  have hz := degenerate_fit_zeroed false false [FVal.num 1, FVal.num 3] (FVal.num 2) h
  simpa using hz

/-- C8 (amended, continuous path): whenever the continuous fit tail returns
normally, none of the returned likelihood, xmin and alpha is NaN: the guard of
lines 374-375 raises on a NaN in the main branch, and the degenerate n==1
early return carries zeros and an xmin that cannot be NaN (a NaN threshold
admits no qualifying point). -/
theorem continuous_no_nan_returned (finite silent : Bool) (z : List FVal) (xminv : FVal) :
    (exceptOk (plfit_tail finite silent z xminv)).elim True
      (fun r => r.likelihood.isnan = false ∧ r.xmin.isnan = false ∧ r.alpha.isnan = false) := by
  rw [plfit_tail]
  by_cases h0 : nQf z xminv = 0
  · rw [if_pos h0]
    exact trivial
  · rw [if_neg h0]
    by_cases h1 : nQf z xminv = 1
    · rw [if_pos h1]
      have hx : xminv.isnan = false := nQf_pos_not_nan (Nat.pos_of_ne_zero h0)
      exact ⟨rfl, hx, rfl⟩
    · rw [if_neg h1]
      by_cases hn : ((tail_L finite z xminv).isnan || xminv.isnan ||
          (tail_alpha finite z xminv).isnan) = true
      · rw [if_pos hn]
        exact trivial
      · rw [if_neg hn]
        have hL : (tail_L finite z xminv).isnan = false := by
          cases hh : (tail_L finite z xminv).isnan
          · rfl
          · exact absurd (by rw [hh]; rfl) hn
        have hx2 : xminv.isnan = false := by
          cases hh : xminv.isnan
          · rfl
          · exact absurd (by rw [hh]; simp) hn
        have ha : (tail_alpha finite z xminv).isnan = false := by
          cases hh : (tail_alpha finite z xminv).isnan
          · rfl
          · exact absurd (by rw [hh]; simp) hn
        exact ⟨hL, hx2, ha⟩

/-- C9 (amended): on every normally returning fit, the reported alpha_error is
`(alpha-1)/sqrt(n)` with `n` the count of points at or above the selected
xmin, except the degenerate continuous fit (n == 1), where alpha_error is
zeroed together with alpha; the discrete selector (which only returns normally
without the finite correction) always reports the formula. -/
theorem alphaerr_formula_amended :
    (∀ (finite silent : Bool) (z : List FVal) (xminv : FVal),
      (exceptOk (plfit_tail finite silent z xminv)).elim True
        (fun r => r.alphaerr =
          (if nQf z xminv = 1 then FVal.num 0
           else fdiv (fsub r.alpha (FVal.num 1)) (fsqrt (FVal.num ((nQf z xminv : ℕ) : ℝ)))))) ∧
    (∀ (zetaf : FVal → FVal → FVal) (data : List FVal) (finite : Bool),
      (exceptOk (discrete_best_alpha zetaf data finite)).elim True
        (fun r => r.ngtx = (data.filter (fun t => fgeB t r.best_xmin)).length ∧
          r.alphaerr =
            fdiv (fsub r.best_alpha (FVal.num 1)) (fsqrt (FVal.num ((r.ngtx : ℕ) : ℝ))))) := by
  constructor
  · intro finite silent z xminv
    rw [plfit_tail]
    by_cases h0 : nQf z xminv = 0
    · rw [if_pos h0]
      exact trivial
    · rw [if_neg h0]
      by_cases h1 : nQf z xminv = 1
      · rw [if_pos h1]
        show FVal.num 0 = if nQf z xminv = 1 then FVal.num 0 else _
        rw [if_pos h1]
      · rw [if_neg h1]
        by_cases hn : ((tail_L finite z xminv).isnan || xminv.isnan ||
            (tail_alpha finite z xminv).isnan) = true
        · rw [if_pos hn]
          exact trivial
        · rw [if_neg hn]
          show tail_alphaerr finite z xminv = if nQf z xminv = 1 then FVal.num 0 else _
          rw [if_neg h1]
          rfl
  · intro zetaf data finite
    rw [discrete_best_alpha]
    cases finite with
    | true =>
      rw [if_pos rfl]
      exact trivial
    | false =>
      rw [if_neg (by simp)]
      exact ⟨rfl, rfl⟩

/-- C9 (counterexample): a degenerate but normally completed fit (sample
[1, 5], caller threshold 3: one qualifying point) reports alpha = 0 and
alpha_error = 0, while the claimed formula `(alpha-1)/sqrt(n)` evaluates to
-1 at the reported alpha = 0 and n = 1; so the reported alpha_error does not
equal the formula on every completed fit. -/
theorem degenerate_alphaerr_cex :
    plfit_tail false false [FVal.num 1, FVal.num 5] (FVal.num 3) =
      Except.ok ⟨FVal.num 3, FVal.num 0, FVal.num 0, FVal.num 0, FVal.num 0, true⟩ ∧
      nQf [FVal.num 1, FVal.num 5] (FVal.num 3) = 1 ∧
      fdiv (fsub (FVal.num 0) (FVal.num 1)) (fsqrt (FVal.num ((1 : ℕ) : ℝ))) ≠ FVal.num 0 := by
  have h1 : fgeB (FVal.num 1) (FVal.num 3) = false := by
    show decide ((3:ℝ) ≤ 1) = false
    exact decide_eq_false (by norm_num)
  have h2 : fgeB (FVal.num 5) (FVal.num 3) = true := by
    show decide ((3:ℝ) ≤ 5) = true
    exact decide_eq_true (by norm_num)
  have hn : nQf [FVal.num 1, FVal.num 5] (FVal.num 3) = 1 := by
    rw [nQf]
    simp only [List.filter_cons, List.filter_nil, h1, h2]
    rfl
  refine ⟨?_, hn, ?_⟩
  · rw [plfit_tail, if_neg (by rw [hn]; omega), if_pos hn]
    rfl
  · have hs : fsqrt (FVal.num ((1 : ℕ) : ℝ)) = FVal.num (Real.sqrt 1) := by
      show (if ((1:ℕ):ℝ) < 0 then FVal.nan else FVal.num (Real.sqrt ((1:ℕ):ℝ))) = _
      rw [if_neg (by norm_num)]
      norm_num
    have hd : fdiv (FVal.num (0 - 1 : ℝ)) (FVal.num (Real.sqrt 1)) =
        FVal.num ((0 - 1) / Real.sqrt 1) := by
      show (if Real.sqrt 1 = 0 then _ else FVal.num ((0 - 1 : ℝ) / Real.sqrt 1)) = _
      rw [if_neg (by rw [Real.sqrt_one]; norm_num)]
    rw [show fsub (FVal.num 0) (FVal.num 1) = FVal.num (0 - 1 : ℝ) from rfl, hs, hd]
    intro hcon
    simp only [FVal.num.injEq, Real.sqrt_one] at hcon
    norm_num at hcon

/-- C8 (counterexample): on the discrete path the fit returns a NaN alpha to
the caller without raising.  The sample [0.25, 0.25] has a duplicate and no
negative point, so the default configuration auto-classifies it as discrete
and takes the lines 248-254 return; the only candidate threshold is 0.25, and
`discrete_alpha_mle` at it takes `log(0.25/(0.25-0.5)) = log(-1) = nan`, so
the selected alpha is NaN - and the discrete return path has no NaN guard. -/
theorem discrete_nan_returned_cex :
    plfit_discrete_return zetaF [FVal.num (1/4 : ℝ), FVal.num (1/4 : ℝ)] false =
      Except.ok (FVal.num (1/4 : ℝ), FVal.nan) ∧
      (npunique [FVal.num (1/4 : ℝ), FVal.num (1/4 : ℝ)]).length <
        ([FVal.num (1/4 : ℝ), FVal.num (1/4 : ℝ)] : List FVal).length ∧
      ([FVal.num (1/4 : ℝ), FVal.num (1/4 : ℝ)] : List FVal).countP
        (fun t => fltB t (FVal.num 0)) = 0 := by
  have hle : fleB (FVal.num (1/4 : ℝ)) (FVal.num (1/4 : ℝ)) = true := by
    show decide ((1/4:ℝ) ≤ 1/4) = true
    exact decide_eq_true le_rfl
  have hge : fgeB (FVal.num (1/4 : ℝ)) (FVal.num (1/4 : ℝ)) = true := hle
  have hfil : List.filter (fun t => fgeB t (FVal.num (1/4 : ℝ)))
      [FVal.num (1/4 : ℝ), FVal.num (1/4 : ℝ)] =
      [FVal.num (1/4 : ℝ), FVal.num (1/4 : ℝ)] := by
    simp only [List.filter_cons, List.filter_nil, hge, eq_self_iff_true, if_true]
  have hsort : fsort [FVal.num (1/4 : ℝ), FVal.num (1/4 : ℝ)] =
      [FVal.num (1/4 : ℝ), FVal.num (1/4 : ℝ)] := by
    simp only [fsort, List.foldr_cons, List.foldr_nil, finsert, hle, eq_self_iff_true,
      if_true]
  have hfeq : feqB (FVal.num (1/4 : ℝ)) (FVal.num (1/4 : ℝ)) = true := by
    rw [feqB, hle]
    rfl
  have huniq : npunique [FVal.num (1/4 : ℝ), FVal.num (1/4 : ℝ)] = [FVal.num (1/4 : ℝ)] := by
    rw [npunique, hsort]
    simp only [dedupSorted, hfeq, eq_self_iff_true, if_true]
  have halpha : discrete_alpha_mle_f [FVal.num (1/4 : ℝ), FVal.num (1/4 : ℝ)]
      (FVal.num (1/4 : ℝ)) = FVal.nan := by
    simp only [discrete_alpha_mle_f, hfil]
    rw [if_neg (by simp)]
    have hsub : fsub (FVal.num (1/4 : ℝ)) (FVal.num (1/2)) = FVal.num (1/4 - 1/2 : ℝ) := rfl
    have hdivneg : fdiv (FVal.num (1/4 : ℝ)) (FVal.num (1/4 - 1/2 : ℝ)) =
        FVal.num ((1/4) / (1/4 - 1/2) : ℝ) := by
      show (if (1/4 - 1/2 : ℝ) = 0 then _ else FVal.num ((1/4) / (1/4 - 1/2) : ℝ)) = _
      rw [if_neg (by norm_num)]
    have hlogneg : flog (FVal.num ((1/4) / (1/4 - 1/2) : ℝ)) = FVal.nan := by
      show (if ((1/4) / (1/4 - 1/2) : ℝ) < 0 then FVal.nan else _) = FVal.nan
      rw [if_pos (by norm_num)]
    simp only [List.map_cons, List.map_nil, hsub, hdivneg, hlogneg]
    rfl
  have hxmins : dba_xmins [FVal.num (1/4 : ℝ), FVal.num (1/4 : ℝ)] = [FVal.num (1/4 : ℝ)] :=
    huniq
  have halphas : dba_alphas [FVal.num (1/4 : ℝ), FVal.num (1/4 : ℝ)] = [FVal.nan] := by
    rw [dba_alphas, hxmins]
    simp only [List.map_cons, List.map_nil, halpha]
  have hks : dba_ks [FVal.num (1/4 : ℝ), FVal.num (1/4 : ℝ)] =
      [match discrete_ksD_f [FVal.num (1/4 : ℝ), FVal.num (1/4 : ℝ)] (FVal.num (1/4 : ℝ))
          FVal.nan with
        | FVal.nan => FVal.inf
        | w => w] := by
    rw [dba_ks, hxmins, halphas]
    rfl
  have hbi : dba_best_index [FVal.num (1/4 : ℝ), FVal.num (1/4 : ℝ)] = 0 := by
    rw [dba_best_index, hks]
    rfl
  refine ⟨?_, ?_, ?_⟩
  · rw [plfit_discrete_return, discrete_best_alpha, if_neg (by simp)]
    simp only [Except.map, hxmins, halphas, hbi, List.getD_cons_zero]
  · rw [huniq]
    simp
  · have hflt : fltB (FVal.num (1/4 : ℝ)) (FVal.num 0) = false := by
      show decide ((1/4:ℝ) < 0) = false
      exact decide_eq_false (by norm_num)
    simp only [List.countP_cons, List.countP_nil, hflt]
    rfl

/-! ## Continuous candidate selection (plfit.plfit lines 306-307) over IEEE values

Line 306 is `best_ks_index = argmin(kstest_values[:nmax])` on a float array,
and `kstest_values` can contain NaN: on a sample containing 0 (which the
constructor stores unchanged when no negatives are present), the candidate
`xmin = 0` makes `kstest_` divide by zero and produce NaN.  On a float array
that contains a NaN, `np.argmin` returns the position of the first NaN (its
scan replaces the current best whenever `not (best <= next)`, which is also
true when `next` is NaN, and then stops), so the selection is embedded over
`FVal` with exactly that semantics. -/

theorem fltB_irrefl (a : FVal) : fltB a a = false := by
  cases a with
  | num x => exact decide_eq_false (lt_irrefl x)
  | inf => rfl
  | ninf => rfl
  | nan => rfl

theorem fleB_refl {a : FVal} (h : a.isnan = false) : fleB a a = true := by
  cases a with
  | num x => exact decide_eq_true le_rfl
  | inf => rfl
  | ninf => rfl
  | nan => simp [FVal.isnan] at h

theorem fleB_of_fltB {a b : FVal} (h : fltB a b = true) : fleB a b = true := by
  cases a <;> cases b <;> simp_all [fltB, fleB]
  linarith

theorem fleB_of_not_fltB {a b : FVal} (ha : a.isnan = false) (hb : b.isnan = false)
    (h : fltB a b = false) : fleB b a = true := by
  cases a <;> cases b <;> simp_all [fltB, fleB, FVal.isnan]

theorem fleB_trans {a b c : FVal} (ha : a.isnan = false) (hb : b.isnan = false)
    (hc : c.isnan = false) (h1 : fleB a b = true) (h2 : fleB b c = true) :
    fleB a c = true := by
  cases a <;> cases b <;> cases c <;> simp_all [fleB, FVal.isnan]
  linarith

/-- The `np_argmin_core` scan under `fltB` on a NaN-free list: the returned
index is in range, holds the returned value, that value is minimal under the
IEEE order, and every earlier element is strictly larger. -/
theorem np_argmin_core_spec_f :
    ∀ (l : List FVal), (∀ a ∈ l, a.isnan = false) →
      ∀ (j : ℕ) (m : FVal), np_argmin_core fltB l = some (j, m) →
      j < l.length ∧ (∀ d, l.getD j d = m) ∧
        (∀ (k : ℕ) (d : FVal), k < l.length → fleB m (l.getD k d) = true) ∧
        (∀ (k : ℕ) (d : FVal), k < j → fltB m (l.getD k d) = true) := by
  intro l
  induction l with
  | nil => intro _ j m h; simp [np_argmin_core] at h
  | cons x xs ih =>
    intro hnn j m h
    have hx : x.isnan = false := hnn x (by simp)
    have hxs : ∀ a ∈ xs, a.isnan = false := fun a ha => hnn a (by simp [ha])
    rw [np_argmin_core] at h
    cases hc : np_argmin_core fltB xs with
    | none =>
      simp only [hc, Option.some.injEq, Prod.mk.injEq] at h
      obtain ⟨hj, hm⟩ := h
      subst hj; subst hm
      have hxs0 : xs = [] := (np_argmin_core_eq_none _ xs).mp hc
      subst hxs0
      refine ⟨by simp, by simp, ?_, by omega⟩
      intro k d hk
      simp only [List.length_cons, List.length_nil] at hk
      interval_cases k
      · simpa using fleB_refl hx
    | some p =>
      obtain ⟨j1, m1⟩ := p
      simp only [hc] at h
      obtain ⟨hj1, hget1, hmin1, hfirst1⟩ := ih hxs j1 m1 hc
      have hm1nn : m1.isnan = false := by
        have hg := hget1 FVal.nan
        have hmem : xs.getD j1 FVal.nan ∈ xs := by
          rw [List.getD_eq_getElem _ _ hj1]
          exact List.getElem_mem hj1
        rw [hg] at hmem
        exact hxs m1 hmem
      by_cases hlt : fltB m1 x = true
      · rw [if_pos hlt] at h
        simp only [Option.some.injEq, Prod.mk.injEq] at h
        obtain ⟨hj, hm⟩ := h
        subst hj; subst hm
        refine ⟨by simpa using hj1, ?_, ?_, ?_⟩
        · intro d; simpa using hget1 d
        · intro k d hk
          cases k with
          | zero => simpa using fleB_of_fltB hlt
          | succ k =>
            simp only [List.length_cons, Nat.succ_lt_succ_iff] at hk
            simpa using hmin1 k d hk
        · intro k d hk
          cases k with
          | zero => simpa using hlt
          | succ k =>
            simp only [Nat.succ_lt_succ_iff] at hk
            simpa using hfirst1 k d hk
      · have hltf : fltB m1 x = false := by
          cases hq : fltB m1 x
          · rfl
          · exact absurd hq hlt
        rw [if_neg hlt] at h
        simp only [Option.some.injEq, Prod.mk.injEq] at h
        obtain ⟨hj, hm⟩ := h
        subst hj; subst hm
        have hxm1 : fleB x m1 = true := fleB_of_not_fltB hm1nn hx hltf
        refine ⟨by simp, by simp, ?_, by omega⟩
        intro k d hk
        cases k with
        | zero => simpa using fleB_refl hx
        | succ k =>
          simp only [List.length_cons, Nat.succ_lt_succ_iff] at hk
          have h1 := hmin1 k d hk
          have hknn : (xs.getD k d).isnan = false := by
            rw [List.getD_eq_getElem _ _ hk]
            exact hxs _ (List.getElem_mem hk)
          simpa using fleB_trans hx hm1nn hknn hxm1 h1

theorem np_argmin_spec_f (l : List FVal) (hl : l ≠ []) (hnn : ∀ a ∈ l, a.isnan = false) :
    np_argmin fltB l < l.length ∧
      (∀ (k : ℕ) (d : FVal), k < l.length →
        fleB (l.getD (np_argmin fltB l) d) (l.getD k d) = true) ∧
      (∀ (k : ℕ) (d : FVal), k < np_argmin fltB l →
        fltB (l.getD (np_argmin fltB l) d) (l.getD k d) = true) := by
  cases hc : np_argmin_core fltB l with
  | none => exact absurd ((np_argmin_core_eq_none _ l).mp hc) hl
  | some p =>
    obtain ⟨j, m⟩ := p
    obtain ⟨hj, hget, hmin, hfirst⟩ := np_argmin_core_spec_f l hnn j m hc
    have harg : np_argmin fltB l = j := by simp [np_argmin, hc]
    rw [harg]
    refine ⟨hj, ?_, ?_⟩
    · intro k d hk
      rw [hget d]; exact hmin k d hk
    · intro k d hk
      rw [hget d]; exact hfirst k d hk

/-- numpy argmin on a float array, NaN included: the C scan starts at the
first element and replaces the current best whenever `not (best <= next)` -
true both when `next` is smaller and when `next` is NaN - and stops once the
best is NaN.  Net effect: the index of the first NaN when one is present,
otherwise the first occurrence of the minimum. -/
noncomputable def np_argmin_ieee (l : List FVal) : ℕ :=
  if l.findIdx FVal.isnan = l.length then np_argmin fltB l else l.findIdx FVal.isnan

theorem np_argmin_ieee_of_no_nan {l : List FVal} (h : ∀ a ∈ l, a.isnan = false) :
    np_argmin_ieee l = np_argmin fltB l := by
  rw [np_argmin_ieee, if_pos (List.findIdx_eq_length.mpr h)]

/-- plfit.plfit line 306: `best_ks_index = argmin(kstest_values[:nmax])`, on
the float-valued per-candidate KS array. -/
noncomputable def best_ks_index (kstest_values : List FVal) (nmax : ℕ) : ℕ :=
  np_argmin_ieee (kstest_values.take nmax)

/-- plfit.plfit line 307: `xmin = xmins[best_ks_index]`. -/
noncomputable def selected_xmin (xmins kstest_values : List FVal) (nmax : ℕ) : FVal :=
  xmins.getD (best_ks_index kstest_values nmax) FVal.nan

/-- C4 (amended): when no per-candidate KS value in the usable range is NaN,
the selected index is in range, its KS value is minimal over the range under
the IEEE order, ties are broken towards the lowest index (first occurrence,
hence smallest xmin, since the candidates are sorted ascending), and the
selected xmin is one of the candidate values. -/
theorem continuous_selection_minimal (xmins kstest_values : List FVal) (nmax : ℕ)
    (h1 : 0 < nmax) (h2 : nmax ≤ kstest_values.length)
    (h3 : kstest_values.length = xmins.length)
    (hfin : ∀ a ∈ kstest_values.take nmax, a.isnan = false) :
    best_ks_index kstest_values nmax < nmax ∧
      (∀ j, j < nmax →
        fleB (kstest_values.getD (best_ks_index kstest_values nmax) FVal.nan)
          (kstest_values.getD j FVal.nan) = true) ∧
      (∀ j, j < nmax →
        kstest_values.getD j FVal.nan =
          kstest_values.getD (best_ks_index kstest_values nmax) FVal.nan →
        best_ks_index kstest_values nmax ≤ j) ∧
      selected_xmin xmins kstest_values nmax ∈ xmins := by
  have hlt : (kstest_values.take nmax).length = nmax := by
    rw [List.length_take]
    omega
  have hne : kstest_values.take nmax ≠ [] := by
    intro h
    rw [h] at hlt
    simp at hlt
    omega
  obtain ⟨hi, hmin, hfirst⟩ := np_argmin_spec_f (kstest_values.take nmax) hne hfin
  have hbk : best_ks_index kstest_values nmax = np_argmin fltB (kstest_values.take nmax) :=
    by rw [best_ks_index, np_argmin_ieee_of_no_nan hfin]
  rw [← hbk] at hi hmin hfirst
  rw [hlt] at hi
  refine ⟨hi, ?_, ?_, ?_⟩
  · intro j hj
    have hh := hmin j FVal.nan (by omega)
    rwa [getD_take_eq _ _ _ _ hi, getD_take_eq _ _ _ _ hj] at hh
  · intro j hj heq
    by_contra hcon
    have hjlt : j < best_ks_index kstest_values nmax := by omega
    have hh := hfirst j FVal.nan hjlt
    rw [getD_take_eq _ _ _ _ hi, getD_take_eq _ _ _ _ hj] at hh
    rw [heq] at hh
    rw [fltB_irrefl] at hh
    exact Bool.false_ne_true hh
  · have hxm : best_ks_index kstest_values nmax < xmins.length := by omega
    rw [selected_xmin, List.getD_eq_getElem _ _ hxm]
    exact List.getElem_mem hxm

/-- C4 (witness): the amended selection property at a concrete NaN-free
input: candidates xmins = [2, 3, 5] with KS values [7, 1, 1] and usable range
nmax = 3; the minimum 1 first occurs at index 1, so xmin 3 is selected. -/
theorem continuous_selection_minimal_witness :
    best_ks_index [FVal.num 7, FVal.num 1, FVal.num 1] 3 < 3 ∧
      (∀ j, j < 3 →
        fleB (List.getD [FVal.num 7, FVal.num 1, FVal.num 1]
            (best_ks_index [FVal.num 7, FVal.num 1, FVal.num 1] 3) FVal.nan)
          (List.getD [FVal.num 7, FVal.num 1, FVal.num 1] j FVal.nan) = true) ∧
      (∀ j, j < 3 →
        List.getD [FVal.num 7, FVal.num 1, FVal.num 1] j FVal.nan =
          List.getD [FVal.num 7, FVal.num 1, FVal.num 1]
            (best_ks_index [FVal.num 7, FVal.num 1, FVal.num 1] 3) FVal.nan →
        best_ks_index [FVal.num 7, FVal.num 1, FVal.num 1] 3 ≤ j) ∧
      selected_xmin [FVal.num 2, FVal.num 3, FVal.num 5] [FVal.num 7, FVal.num 1, FVal.num 1] 3 ∈
        [FVal.num 2, FVal.num 3, FVal.num 5] :=
  continuous_selection_minimal [FVal.num 2, FVal.num 3, FVal.num 5]
    [FVal.num 7, FVal.num 1, FVal.num 1] 3 (by norm_num) (by simp) (by simp)
    (by
      intro a ha
      simp only [List.take, List.mem_cons, List.not_mem_nil, or_false] at ha
      rcases ha with rfl | rfl | rfl <;> rfl)

/-! ## The per-candidate KS array of the continuous sweep (plfit.py lines 104-125, 268-273) -/

/-- The per-candidate alpha inside the function generated by kstest_gen
(plfit.py line 118): `a = 1 + n/sum(log(x/xmin))` over the qualifying
points. -/
noncomputable def kstest_alpha (x : List FVal) (xmin : FVal) : FVal :=
  fadd (FVal.num 1)
    (fdiv (FVal.num (((x.filter (fun t => fgeB t xmin)).length : ℕ) : ℝ))
      (fsum ((x.filter (fun t => fgeB t xmin)).map (fun t => flog (fdiv t xmin)))))

/-- The function generated by kstest_gen (plfit.py lines 104-125), as the
pure-python fitter calls it (line 269: `kstest_gen(z)`, hence `unique=False`
and `finite=False`): keep `x[x >= xmin]`, return inf when nothing qualifies,
else `ks = max(abs((1-(xmin/x)**(a-1)) - arange(n)/n))`. -/
noncomputable def kstest_f (x : List FVal) (xmin : FVal) : FVal :=
  if (x.filter (fun t => fgeB t xmin)).length = 0 then FVal.inf
  else
    npmax
      ((((x.filter (fun t => fgeB t xmin)).map
          (fun t => fsub (FVal.num 1)
            (fpow (fdiv xmin t) (fsub (kstest_alpha x xmin) (FVal.num 1))))).zip
        ((List.range (x.filter (fun t => fgeB t xmin)).length).map
          (fun (i : ℕ) => fdiv (FVal.num (i : ℝ))
            (FVal.num (((x.filter (fun t => fgeB t xmin)).length : ℕ) : ℝ))))).map
        (fun p => fabs (fsub p.1 p.2)))

/-- plfit.plfit lines 268-273 (pure-python branch): the per-candidate KS array
`kstest_values = map(kstest_gen(z), xmins)` over the candidates
`xmins = unique(z)`. -/
noncomputable def kstest_values_of (z : List FVal) : List FVal :=
  (npunique z).map (fun xm => kstest_f z xm)

theorem isnan_num (x : ℝ) : (FVal.num x).isnan = false := rfl

theorem fsub_nan_left (y : FVal) : fsub FVal.nan y = FVal.nan := by cases y <;> rfl

theorem fsub_num_num (x y : ℝ) : fsub (FVal.num x) (FVal.num y) = FVal.num (x - y) := rfl

theorem fabs_nan : fabs FVal.nan = FVal.nan := rfl

theorem fabs_num (x : ℝ) : fabs (FVal.num x) = FVal.num |x| := rfl

theorem fmax2_nan_left (y : FVal) : fmax2 FVal.nan y = FVal.nan := by
  rw [fmax2]
  simp [FVal.isnan]

theorem fmax2_isnan_false {a b : FVal} (ha : a.isnan = false) (hb : b.isnan = false) :
    (fmax2 a b).isnan = false := by
  rw [fmax2, ha, hb]
  rw [if_neg (by simp)]
  by_cases h : fleB a b = true
  · rw [if_pos h]; exact hb
  · rw [if_neg h]; exact ha

theorem npmax_isnan_false : ∀ (l : List FVal), l ≠ [] → (∀ a ∈ l, a.isnan = false) →
    (npmax l).isnan = false := by
  have main : ∀ (ys : List FVal) (acc : FVal), acc.isnan = false →
      (∀ a ∈ ys, a.isnan = false) → (ys.foldl fmax2 acc).isnan = false := by
    intro ys
    induction ys with
    | nil => intro acc hacc _; simpa using hacc
    | cons y ys ih =>
      intro acc hacc hys
      rw [List.foldl_cons]
      exact ih (fmax2 acc y) (fmax2_isnan_false hacc (hys y (by simp)))
        (fun a ha => hys a (by simp [ha]))
  intro l hne h
  cases l with
  | nil => exact absurd rfl hne
  | cons x xs =>
    rw [npmax]
    exact main xs x (h x (by simp)) (fun a ha => h a (by simp [ha]))

theorem fdiv_num_num (a b : ℝ) (hb : b ≠ 0) :
    fdiv (FVal.num a) (FVal.num b) = FVal.num (a / b) := by
  show (if b = 0 then (if a = 0 then FVal.nan else if 0 < a then FVal.inf else FVal.ninf)
      else FVal.num (a / b)) = FVal.num (a / b)
  rw [if_neg hb]

theorem fdiv_zero_zero : fdiv (FVal.num 0) (FVal.num 0) = FVal.nan := by
  show (if (0:ℝ) = 0 then
      (if (0:ℝ) = 0 then FVal.nan else if 0 < (0:ℝ) then FVal.inf else FVal.ninf)
      else FVal.num (0 / 0)) = FVal.nan
  rw [if_pos rfl, if_pos rfl]

theorem fdiv_pos_zero (a : ℝ) (ha : 0 < a) : fdiv (FVal.num a) (FVal.num 0) = FVal.inf := by
  show (if (0:ℝ) = 0 then
      (if a = 0 then FVal.nan else if 0 < a then FVal.inf else FVal.ninf)
      else FVal.num (a / 0)) = FVal.inf
  rw [if_pos rfl, if_neg (ne_of_gt ha), if_pos ha]

theorem flog_num_pos (a : ℝ) (h1 : ¬ a < 0) (h2 : a ≠ 0) :
    flog (FVal.num a) = FVal.num (Real.log a) := by
  show (if a < 0 then FVal.nan else if a = 0 then FVal.ninf else FVal.num (Real.log a)) = _
  rw [if_neg h1, if_neg h2]

theorem fpow_one_base (a b : ℝ) (h : a = 1) : fpow (FVal.num a) (FVal.num b) = FVal.num 1 := by
  show (if a = 1 then FVal.num 1 else if b = 0 then FVal.num 1
      else if 0 < a then FVal.num (a ^ b)
      else if a = 0 then (if 0 < b then FVal.num 0 else FVal.inf) else FVal.nan) = FVal.num 1
  rw [if_pos h]

theorem fpow_pos_base (a b : ℝ) (h1 : a ≠ 1) (h2 : b ≠ 0) (h3 : 0 < a) :
    fpow (FVal.num a) (FVal.num b) = FVal.num (a ^ b) := by
  show (if a = 1 then FVal.num 1 else if b = 0 then FVal.num 1
      else if 0 < a then FVal.num (a ^ b)
      else if a = 0 then (if 0 < b then FVal.num 0 else FVal.inf) else FVal.nan) =
    FVal.num (a ^ b)
  rw [if_neg h1, if_neg h2, if_pos h3]

theorem fpow_num_nan_of_ne_one (a : ℝ) (h : a ≠ 1) :
    fpow (FVal.num a) FVal.nan = FVal.nan := by
  show (if a = 1 then FVal.num 1 else FVal.nan) = FVal.nan
  rw [if_neg h]

/-- C4 (counterexample): the selection is not always the KS-minimizing
candidate.  On the sample [0, 1, 2, 4] - accepted and stored unchanged by the
constructor, since it has no negative values (see C10) - the candidate
threshold 0 makes the generated kstest function divide by zero and its
per-candidate KS value is NaN; numpy argmin returns the position of the first
NaN, so over the usable range nmax = 3 (which the nosmall fallback yields for
this sample) line 306 selects index 0 and line 307 selects xmin = 0, even
though the KS value of candidate 2 in the range is an actual number and the
NaN at the selected index is not below-or-equal to it.  The selected
candidate therefore does not minimize the KS statistic. -/
theorem continuous_selection_nan_cex :
    best_ks_index (kstest_values_of [FVal.num 0, FVal.num 1, FVal.num 2, FVal.num 4]) 3 = 0 ∧
      (kstest_values_of [FVal.num 0, FVal.num 1, FVal.num 2, FVal.num 4]).getD 0 FVal.inf = FVal.nan ∧
      ((kstest_values_of [FVal.num 0, FVal.num 1, FVal.num 2, FVal.num 4]).getD 2 FVal.inf).isnan = false ∧
      fleB ((kstest_values_of [FVal.num 0, FVal.num 1, FVal.num 2, FVal.num 4]).getD 0 FVal.inf) ((kstest_values_of [FVal.num 0, FVal.num 1, FVal.num 2, FVal.num 4]).getD 2 FVal.inf) = false ∧
      selected_xmin (npunique [FVal.num 0, FVal.num 1, FVal.num 2, FVal.num 4]) (kstest_values_of [FVal.num 0, FVal.num 1, FVal.num 2, FVal.num 4]) 3 = FVal.num 0 := by
  have hge : ∀ (a b : ℝ), b ≤ a → fgeB (FVal.num a) (FVal.num b) = true :=
    fun a b h => decide_eq_true h
  have hgef : ∀ (a b : ℝ), ¬ b ≤ a → fgeB (FVal.num a) (FVal.num b) = false :=
    fun a b h => decide_eq_false h
  have hle : ∀ (a b : ℝ), a ≤ b → fleB (FVal.num a) (FVal.num b) = true :=
    fun a b h => decide_eq_true h
  have hlef : ∀ (a b : ℝ), ¬ a ≤ b → fleB (FVal.num a) (FVal.num b) = false :=
    fun a b h => decide_eq_false h
  have hfeqf : ∀ (a b : ℝ), ¬ b ≤ a → feqB (FVal.num a) (FVal.num b) = false := by
    intro a b h
    rw [feqB, hlef b a h, Bool.and_false]
  have hsortz : fsort [FVal.num 0, FVal.num 1, FVal.num 2, FVal.num 4] = [FVal.num 0, FVal.num 1, FVal.num 2, FVal.num 4] := by
    simp only [fsort, List.foldr_cons, List.foldr_nil, finsert,
      hle 2 4 (by norm_num), hle 1 2 (by norm_num), hle 0 1 (by norm_num),
      eq_self_iff_true, if_true]
  have huniqz : npunique [FVal.num 0, FVal.num 1, FVal.num 2, FVal.num 4] = [FVal.num 0, FVal.num 1, FVal.num 2, FVal.num 4] := by
    rw [npunique, hsortz]
    simp only [dedupSorted, hfeqf 0 1 (by norm_num), hfeqf 1 2 (by norm_num),
      hfeqf 2 4 (by norm_num), Bool.false_eq_true, if_false]
  have hq0 : List.filter (fun t => fgeB t (FVal.num 0)) [FVal.num 0, FVal.num 1, FVal.num 2, FVal.num 4] = [FVal.num 0, FVal.num 1, FVal.num 2, FVal.num 4] := by
    simp only [List.filter_cons, List.filter_nil, hge 0 0 le_rfl,
      hge 1 0 (by norm_num), hge 2 0 (by norm_num), hge 4 0 (by norm_num),
      eq_self_iff_true, if_true]
  have ha0 : kstest_alpha [FVal.num 0, FVal.num 1, FVal.num 2, FVal.num 4] (FVal.num 0) = FVal.nan := by
    rw [kstest_alpha, hq0]
    simp only [List.map_cons, List.map_nil, fdiv_zero_zero,
      fdiv_pos_zero 1 (by norm_num), fdiv_pos_zero 2 (by norm_num),
      fdiv_pos_zero 4 (by norm_num)]
    rfl
  have hks0 : kstest_f [FVal.num 0, FVal.num 1, FVal.num 2, FVal.num 4] (FVal.num 0) = FVal.nan := by
    simp only [kstest_f, hq0]
    rw [if_neg (by simp)]
    rw [ha0]
    simp only [List.map_cons, List.map_nil, fsub_nan_left, fdiv_zero_zero,
      fdiv_num_num 0 1 (by norm_num), fdiv_num_num 0 2 (by norm_num),
      fdiv_num_num 0 4 (by norm_num)]
    simp only [show fpow FVal.nan FVal.nan = FVal.nan from rfl,
      fpow_num_nan_of_ne_one (0/1) (by norm_num), fpow_num_nan_of_ne_one (0/2) (by norm_num),
      fpow_num_nan_of_ne_one (0/4) (by norm_num)]
    simp only [show fsub (FVal.num 1) FVal.nan = FVal.nan from rfl]
    rw [show (List.length [FVal.num 0, FVal.num 1, FVal.num 2, FVal.num 4] : ℕ) = 4 from rfl,
      show List.range 4 = [0, 1, 2, 3] from rfl]
    simp only [List.map_cons, List.map_nil, List.zip_cons_cons, List.zip_nil_left,
      fsub_nan_left, fabs_nan]
    simp only [npmax, List.foldl_cons, List.foldl_nil, fmax2_nan_left]
  have hq2 : List.filter (fun t => fgeB t (FVal.num 2)) [FVal.num 0, FVal.num 1, FVal.num 2, FVal.num 4] = [FVal.num 2, FVal.num 4] := by
    simp only [List.filter_cons, List.filter_nil, hgef 0 2 (by norm_num),
      hgef 1 2 (by norm_num), hge 2 2 le_rfl, hge 4 2 (by norm_num),
      eq_self_iff_true, if_true, Bool.false_eq_true, if_false]
  have hS2 : (0 + Real.log (2/2) + Real.log (4/2) : ℝ) ≠ 0 := by
    have h1 : Real.log (2/2 : ℝ) = 0 := by
      rw [show (2/2 : ℝ) = 1 by norm_num, Real.log_one]
    have h2 : 0 < Real.log (4/2 : ℝ) := Real.log_pos (by norm_num)
    rw [h1]
    have h3 : (0:ℝ) < 0 + 0 + Real.log (4/2) := by linarith
    exact ne_of_gt h3
  have ha2 : kstest_alpha [FVal.num 0, FVal.num 1, FVal.num 2, FVal.num 4] (FVal.num 2) =
      FVal.num (1 + ((2:ℕ):ℝ) / (0 + Real.log (2/2) + Real.log (4/2))) := by
    rw [kstest_alpha, hq2]
    simp only [List.map_cons, List.map_nil, fdiv_num_num 2 2 (by norm_num),
      fdiv_num_num 4 2 (by norm_num),
      flog_num_pos (2/2) (by norm_num) (by norm_num),
      flog_num_pos (4/2) (by norm_num) (by norm_num)]
    rw [show fsum [FVal.num (Real.log (2/2)), FVal.num (Real.log (4/2))] =
        FVal.num (0 + Real.log (2/2) + Real.log (4/2)) from rfl]
    rw [fdiv_num_num _ _ hS2]
    rfl
  have hE2ne : (1 + ((2:ℕ):ℝ) / (0 + Real.log (2/2) + Real.log (4/2)) - 1) ≠ 0 := by
    intro hcon
    have hz : ((2:ℕ):ℝ) / (0 + Real.log (2/2) + Real.log (4/2)) = 0 := by linarith
    exact div_ne_zero (by norm_num) hS2 hz
  have hks2nn : (kstest_f [FVal.num 0, FVal.num 1, FVal.num 2, FVal.num 4] (FVal.num 2)).isnan = false := by
    simp only [kstest_f, hq2]
    rw [if_neg (by simp)]
    rw [ha2]
    simp only [List.map_cons, List.map_nil, fdiv_num_num 2 2 (by norm_num),
      fdiv_num_num 2 4 (by norm_num), fsub_num_num]
    rw [fpow_one_base (2/2) _ (by norm_num),
      fpow_pos_base (2/4) _ (by norm_num) hE2ne (by norm_num)]
    simp only [fsub_num_num]
    rw [show (List.length [FVal.num 2, FVal.num 4] : ℕ) = 2 from rfl,
      show List.range 2 = [0, 1] from rfl]
    simp only [List.map_cons, List.map_nil]
    rw [show fdiv (FVal.num ((0:ℕ):ℝ)) (FVal.num ((2:ℕ):ℝ)) =
        FVal.num (((0:ℕ):ℝ) / ((2:ℕ):ℝ)) from fdiv_num_num _ _ (by norm_num),
      show fdiv (FVal.num ((1:ℕ):ℝ)) (FVal.num ((2:ℕ):ℝ)) =
        FVal.num (((1:ℕ):ℝ) / ((2:ℕ):ℝ)) from fdiv_num_num _ _ (by norm_num)]
    simp only [List.zip_cons_cons, List.zip_nil_left, List.map_cons, List.map_nil,
      fsub_num_num, fabs_num]
    apply npmax_isnan_false
    · simp
    · intro a ha
      simp only [List.mem_cons, List.not_mem_nil, or_false] at ha
      rcases ha with rfl | rfl <;> rfl
  have hkv : kstest_values_of [FVal.num 0, FVal.num 1, FVal.num 2, FVal.num 4] =
      [kstest_f [FVal.num 0, FVal.num 1, FVal.num 2, FVal.num 4] (FVal.num 0), kstest_f [FVal.num 0, FVal.num 1, FVal.num 2, FVal.num 4] (FVal.num 1),
        kstest_f [FVal.num 0, FVal.num 1, FVal.num 2, FVal.num 4] (FVal.num 2), kstest_f [FVal.num 0, FVal.num 1, FVal.num 2, FVal.num 4] (FVal.num 4)] := by
    rw [kstest_values_of, huniqz]
    rfl
  have hbest : best_ks_index (kstest_values_of [FVal.num 0, FVal.num 1, FVal.num 2, FVal.num 4]) 3 = 0 := by
    rw [best_ks_index, hkv]
    rw [show List.take 3
        [kstest_f [FVal.num 0, FVal.num 1, FVal.num 2, FVal.num 4] (FVal.num 0), kstest_f [FVal.num 0, FVal.num 1, FVal.num 2, FVal.num 4] (FVal.num 1),
          kstest_f [FVal.num 0, FVal.num 1, FVal.num 2, FVal.num 4] (FVal.num 2), kstest_f [FVal.num 0, FVal.num 1, FVal.num 2, FVal.num 4] (FVal.num 4)] =
        [kstest_f [FVal.num 0, FVal.num 1, FVal.num 2, FVal.num 4] (FVal.num 0), kstest_f [FVal.num 0, FVal.num 1, FVal.num 2, FVal.num 4] (FVal.num 1),
          kstest_f [FVal.num 0, FVal.num 1, FVal.num 2, FVal.num 4] (FVal.num 2)] from rfl]
    rw [np_argmin_ieee, hks0]
    have hfi : List.findIdx FVal.isnan
        [FVal.nan, kstest_f [FVal.num 0, FVal.num 1, FVal.num 2, FVal.num 4] (FVal.num 1), kstest_f [FVal.num 0, FVal.num 1, FVal.num 2, FVal.num 4] (FVal.num 2)] = 0 := rfl
    rw [hfi]
    rw [if_neg (by simp)]
  refine ⟨hbest, ?_, ?_, ?_, ?_⟩
  · rw [hkv]
    simp only [List.getD_cons_zero]
    exact hks0
  · rw [hkv]
    simp only [List.getD_cons_succ, List.getD_cons_zero]
    exact hks2nn
  · rw [hkv]
    simp only [List.getD_cons_succ, List.getD_cons_zero]
    rw [hks0]
    exact fleB_nan_left _
  · rw [selected_xmin, hbest, huniqz]
    simp only [List.getD_cons_zero]

end Plfit
